import Mathlib

/-!
# Verification of the daysApp schedule-generation core

Shallow embedding of the schedule-generation engine of the daysApp
repository (`src/server/schema.rs` and `src/server/scheduler.rs`).

Modelling conventions:
* `HashMap<Weekday, _>` values (`MonthlySchedule`, `DayCount`) always hold
  exactly the five weekdays in the source, so they are embedded as total
  functions from `Weekday`.
* `HashMap<usize, Vec<HashSet<Weekday>>>` (`PastSchedules`) is embedded as
  `Nat → Option (List (List Weekday))`; the inner `HashSet` is used only
  through membership, so a list read up to membership is a faithful set model.
* `f64` score arithmetic is embedded as exact rational arithmetic `ℚ`.
* The two `rand` shuffles (`group_by_required_days` shuffles each quota
  bucket; `find_best_day_combination` shuffles the candidate list) are the
  only nondeterminism.  They are embedded as explicit shuffle oracles — a
  bucket oracle keyed by the quota value and a candidate oracle keyed by a
  running counter (one fresh index per processed flexible employee) — and
  theorems quantify over all oracles that return permutations.
-/

namespace DaysApp

/-- `Weekday` from `schema.rs`: the five working days. -/
inductive Weekday
  | Monday
  | Tuesday
  | Wednesday
  | Thursday
  | Friday
deriving DecidableEq

/-- `Sex` from `schema.rs`. -/
inductive Sex
  | Male
  | Female
deriving DecidableEq

/-- `Role` from `schema.rs`. -/
inductive Role
  | HR
  | AiLlmEngineer
  | SocialMediaMarketing
  | ITSupport
  | MLEngineer
  | DataScientist
  | DataAnalyst
  | FullStackEngineer
  | BackendEngineer
  | FrontendEngineer
  | BlockchainEngineer
  | QaEngineer
  | ProjectManager
  | UiUxDesigner
  | MobileEngineer
  | DevOpsEngineer
  | OperationsManager
deriving DecidableEq

/-- `Employee` from `schema.rs`.  `required_days` is a `u8` in the source;
it is embedded as `Nat` (the catalog only maps 1, 2, 3 and 5). -/
structure Employee where
  id : Nat
  name : String
  sex : Sex
  role : Role
  required_days : Nat
  fixed_days : List Weekday
  is_nsp : Bool
deriving DecidableEq

/-- `MonthlySchedule = HashMap<Weekday, Vec<Employee>>`, always populated
with all five weekdays, embedded as a total function. -/
def MonthlySchedule : Type := Weekday → List Employee

/-- `DayCount = HashMap<Weekday, usize>`, always populated with all five
weekdays, embedded as a total function. -/
def DayCount : Type := Weekday → Nat

/-- `PastSchedules = HashMap<usize, Vec<HashSet<Weekday>>>`. -/
def PastSchedules : Type := Nat → Option (List (List Weekday))

/-- `DayCombination` from `schema.rs`. -/
structure DayCombination where
  days : List Weekday
deriving DecidableEq

/-- `ScheduleGenerator::new`'s `weekdays` vector. -/
def gen_weekdays : List Weekday :=
  [Weekday.Monday, Weekday.Tuesday, Weekday.Wednesday, Weekday.Thursday, Weekday.Friday]

/-- The 1-day combinations from `ScheduleGenerator` (`schema.rs`). -/
def combos1 : List DayCombination :=
  [⟨[Weekday.Monday]⟩, ⟨[Weekday.Tuesday]⟩, ⟨[Weekday.Wednesday]⟩,
   ⟨[Weekday.Thursday]⟩, ⟨[Weekday.Friday]⟩]

/-- The 2-day combinations from `ScheduleGenerator` (`schema.rs`). -/
def combos2 : List DayCombination :=
  [⟨[Weekday.Monday, Weekday.Wednesday]⟩, ⟨[Weekday.Monday, Weekday.Thursday]⟩,
   ⟨[Weekday.Monday, Weekday.Friday]⟩, ⟨[Weekday.Tuesday, Weekday.Thursday]⟩,
   ⟨[Weekday.Tuesday, Weekday.Friday]⟩, ⟨[Weekday.Wednesday, Weekday.Friday]⟩]

/-- The single 3-day combination from `ScheduleGenerator` (`schema.rs`). -/
def combos3 : List DayCombination :=
  [⟨[Weekday.Monday, Weekday.Wednesday, Weekday.Friday]⟩]

/-- The single 5-day combination from `ScheduleGenerator` (`schema.rs`). -/
def combos5 : List DayCombination :=
  [⟨[Weekday.Monday, Weekday.Tuesday, Weekday.Wednesday, Weekday.Thursday, Weekday.Friday]⟩]

/-- The `day_combinations` table built by `ScheduleGenerator` in
`schema.rs`: a lookup from a required-day count to its catalog entry
(`HashMap::get` semantics). -/
def day_combinations (num_days : Nat) : Option (List DayCombination) :=
  if num_days = 1 then some combos1
  else if num_days = 2 then some combos2
  else if num_days = 3 then some combos3
  else if num_days = 5 then some combos5
  else none

/-- The insert-if-absent step the scheduler performs for one employee and
one day (`scheduler.rs` lines 56-61 and 116-121): push the employee onto
the day's list and increment the day's count, unless an employee with the
same id is already on that list. -/
def add_to_day (employee : Employee) (day : Weekday)
    (day_counts : DayCount) (schedule : MonthlySchedule) : DayCount × MonthlySchedule :=
  if (schedule day).any (fun e => e.id == employee.id) then (day_counts, schedule)
  else
    (fun d => if d = day then day_counts d + 1 else day_counts d,
     fun d => if d = day then schedule d ++ [employee] else schedule d)

/-- Iterated `add_to_day` over a list of days: the `for day in ...` loops
of both the fixed phase and the flexible-assignment phase. -/
def insert_days (employee : Employee) (days : List Weekday)
    (day_counts : DayCount) (schedule : MonthlySchedule) : DayCount × MonthlySchedule :=
  days.foldl (fun st day => add_to_day employee day st.1 st.2) (day_counts, schedule)

/-- `process_fixed_schedules` from `scheduler.rs`: walk the roster; an
employee with non-empty `fixed_days` is inserted on each of those days
(deduplicated by id) and collected into the fixed list, the rest are
collected into the flexible list. -/
def process_fixed_schedules :
    List Employee → DayCount → MonthlySchedule →
      (List Employee × List Employee) × DayCount × MonthlySchedule
  | [], day_counts, schedule => (([], []), day_counts, schedule)
  | employee :: rest, day_counts, schedule =>
    if employee.fixed_days.isEmpty then
      let r := process_fixed_schedules rest day_counts schedule
      ((employee :: r.1.1, r.1.2), r.2)
    else
      let p := insert_days employee employee.fixed_days day_counts schedule
      let r := process_fixed_schedules rest p.1 p.2
      ((r.1.1, employee :: r.1.2), r.2)

/-- The `lookback_limit` constant of `find_best_day_combination`. -/
def lookback_limit : Nat := 2

/-- The `recent_schedules` slice of `find_best_day_combination`: keep at
most the `lookback_limit` most recent entries. -/
def recent_of (past_employee_schedules : List (List Weekday)) : List (List Weekday) :=
  if past_employee_schedules.length > lookback_limit then
    past_employee_schedules.drop (past_employee_schedules.length - lookback_limit)
  else past_employee_schedules

/-- The frequency-accumulation loop of `find_best_day_combination`: the
`i`-th kept month (`n` months kept in total) adds
`1.0 - (i / n) * 0.75` to the running score of every weekday in that
month's set. -/
def add_freqs (n : Nat) : Nat → List (List Weekday) → (Weekday → ℚ) → Weekday → ℚ
  | _, [], freqs => freqs
  | i, month :: rest, freqs =>
    add_freqs n (i + 1) rest
      (fun day =>
        if day ∈ month then freqs day + (1 - ((i : ℚ) / (n : ℚ)) * (3 / 4)) else freqs day)

/-- `past_day_frequencies` of `find_best_day_combination`: recency-weighted
per-weekday frequencies over the employee's recent history; all-zero when
the employee has no entry in the map. -/
def past_day_frequencies (past_schedules : PastSchedules) (employee_id : Nat) :
    Weekday → ℚ :=
  match past_schedules employee_id with
  | none => fun _ => 0
  | some months =>
    let recent := recent_of months
    add_freqs recent.length 0 recent (fun _ => 0)

/-- The `temp_counts` construction of `find_best_day_combination`: copy the
current day counts and increment each day of the candidate combination. -/
def bump (days : List Weekday) (day_counts : DayCount) : DayCount :=
  days.foldl (fun counts day => fun d => if d = day then counts d + 1 else counts d) day_counts

/-- The candidate score of `find_best_day_combination`: sum of squared
deviations of the five simulated day counts from their mean, plus three
times the summed repetition frequencies over the combination's days. -/
def combo_score (day_counts : DayCount) (freqs : Weekday → ℚ) (combo : DayCombination) : ℚ :=
  let temp := bump combo.days day_counts
  let values : List ℚ := gen_weekdays.map (fun d => (temp d : ℚ))
  let avg := values.sum / (values.length : ℚ)
  let variance := (values.map (fun v => (v - avg) ^ 2)).sum
  let repetition := (combo.days.map freqs).sum
  variance + 3 * repetition

/-- One iteration of the selection loop of `find_best_day_combination`:
keep the incoming best unless the candidate scores strictly lower than the
running minimum (`none` plays `f64::INFINITY`). -/
def select_step (day_counts : DayCount) (freqs : Weekday → ℚ)
    (st : DayCombination × Option ℚ) (combo : DayCombination) : DayCombination × Option ℚ :=
  let total := combo_score day_counts freqs combo
  match st.2 with
  | none => (combo, some total)
  | some m => if total < m then (combo, some total) else st

/-- `find_best_day_combination` from `scheduler.rs`, taking the
already-shuffled candidate list.  The source indexes `shuffled_combos[0]`
(and would panic on an empty slice); the embedding returns `none` there,
a case never reached from the non-empty catalog entries. -/
def find_best_day_combination (shuffled_combos : List DayCombination)
    (day_counts : DayCount) (employee : Employee) (past_schedules : PastSchedules) :
    Option DayCombination :=
  match shuffled_combos with
  | [] => none
  | c0 :: _ =>
    let freqs := past_day_frequencies past_schedules employee.id
    some (shuffled_combos.foldl (select_step day_counts freqs) (c0, none)).1

/-- The inner employee loop of `process_flexible_employees`: select a best
combination for each employee of a bucket in turn and insert its days.
The counter supplies one fresh index per employee to the candidate-shuffle
oracle. -/
def process_group (shc : Nat → List DayCombination → List DayCombination)
    (available_combos : List DayCombination) (past_schedules : PastSchedules) :
    List Employee → Nat → DayCount → MonthlySchedule → Nat × DayCount × MonthlySchedule
  | [], n, day_counts, schedule => (n, day_counts, schedule)
  | employee :: rest, n, day_counts, schedule =>
    match find_best_day_combination (shc n available_combos) day_counts employee past_schedules with
    | none => process_group shc available_combos past_schedules rest (n + 1) day_counts schedule
    | some best_combo =>
      let p := insert_days employee best_combo.days day_counts schedule
      process_group shc available_combos past_schedules rest (n + 1) p.1 p.2

/-- One key of the quota loop of `process_flexible_employees`: skip keys
with no catalog entry, otherwise process that quota's bucket (the bucket of
`group_by_required_days`, i.e. the shuffled filter of the flexible list). -/
def process_key (shg : Nat → List Employee → List Employee)
    (shc : Nat → List DayCombination → List DayCombination)
    (flexible : List Employee) (past_schedules : PastSchedules)
    (st : Nat × DayCount × MonthlySchedule) (num_days : Nat) :
    Nat × DayCount × MonthlySchedule :=
  match day_combinations num_days with
  | none => st
  | some available_combos =>
    let employees_list := shg num_days (flexible.filter (fun e => e.required_days == num_days))
    process_group shc available_combos past_schedules employees_list st.1 st.2.1 st.2.2

/-- `process_flexible_employees` from `scheduler.rs` (together with
`group_by_required_days`): bucket the flexible employees by quota, shuffle
each bucket, and process the distinct quota keys in descending order. -/
def process_flexible_employees (shg : Nat → List Employee → List Employee)
    (shc : Nat → List DayCombination → List DayCombination)
    (flexible : List Employee) (past_schedules : PastSchedules)
    (day_counts : DayCount) (schedule : MonthlySchedule) : DayCount × MonthlySchedule :=
  let keys := List.insertionSort (fun a b => b ≤ a)
    ((flexible.map (fun e => e.required_days)).dedup)
  (keys.foldl (process_key shg shc flexible past_schedules) (0, day_counts, schedule)).2

/-- `generate_schedule` from `scheduler.rs`: zero-initialized day counts
and empty per-day rosters, fixed phase, then flexible phase. -/
def generate_schedule (shg : Nat → List Employee → List Employee)
    (shc : Nat → List DayCombination → List DayCombination)
    (employees : List Employee) (past_schedules : PastSchedules) : MonthlySchedule :=
  let day_counts : DayCount := fun _ => 0
  let schedule : MonthlySchedule := fun _ => []
  let r := process_fixed_schedules employees day_counts schedule
  let flexible_employees := r.1.1
  (process_flexible_employees shg shc flexible_employees past_schedules r.2.1 r.2.2).2

/-- `generate_balanced_schedule` from `scheduler.rs`: build the generator
(embedded as the static catalog above) and run `generate_schedule`. -/
def generate_balanced_schedule (shg : Nat → List Employee → List Employee)
    (shc : Nat → List DayCombination → List DayCombination)
    (employees : List Employee) (past_schedules : PastSchedules) : MonthlySchedule :=
  generate_schedule shg shc employees past_schedules

/-- The employee ids listed on a given day of a schedule. -/
def idsOn (schedule : MonthlySchedule) (day : Weekday) : List Nat :=
  (schedule day).map (fun e => e.id)

/-- The id-membership test the scheduler itself uses
(`daily_schedule.iter().any(|e| e.id == employee.id)`). -/
def appears (schedule : MonthlySchedule) (employee_id : Nat) (day : Weekday) : Bool :=
  (schedule day).any (fun e => e.id == employee_id)

/-- A shuffle oracle is admissible when every value it returns is a
permutation of its input, which is all `SliceRandom::shuffle` guarantees. -/
def IsShuffler {α : Type} (sh : Nat → List α → List α) : Prop :=
  ∀ n l, (sh n l).Perm l

/-! ## Basic membership lemmas for the insertion step -/

theorem appears_iff (schedule : MonthlySchedule) (i : Nat) (d : Weekday) :
    appears schedule i d = true ↔ i ∈ idsOn schedule d := by
  simp [appears, idsOn, List.any_eq_true, List.mem_map, beq_iff_eq]

theorem any_id_iff (l : List Employee) (i : Nat) :
    (l.any fun e => e.id == i) = true ↔ i ∈ l.map (fun e => e.id) := by
  simp [List.any_eq_true, List.mem_map, beq_iff_eq]

theorem mem_idsOn_add_to_day (employee : Employee) (day : Weekday)
    (day_counts : DayCount) (schedule : MonthlySchedule) (i : Nat) (d : Weekday) :
    i ∈ idsOn ((add_to_day employee day day_counts schedule).2) d ↔
      i ∈ idsOn schedule d ∨ (i = employee.id ∧ d = day) := by
  unfold add_to_day
  by_cases h : ((schedule day).any fun e => e.id == employee.id) = true
  · rw [if_pos h]
    constructor
    · exact Or.inl
    · rintro (hm | ⟨rfl, rfl⟩)
      · exact hm
      · exact (any_id_iff _ _).mp h
  · rw [if_neg h]
    show i ∈ List.map (fun e => e.id)
        (if d = day then schedule d ++ [employee] else schedule d) ↔ _
    by_cases hd : d = day
    · rw [if_pos hd]
      simp only [List.map_append, List.mem_append, List.map_cons, List.map_nil,
        List.mem_singleton]
      constructor
      · rintro (hm | hid)
        · exact Or.inl hm
        · exact Or.inr ⟨hid, hd⟩
      · rintro (hm | ⟨hid, -⟩)
        · exact Or.inl hm
        · exact Or.inr hid
    · rw [if_neg hd]
      constructor
      · exact Or.inl
      · rintro (hm | ⟨-, hdd⟩)
        · exact hm
        · exact absurd hdd hd

theorem nodup_idsOn_add_to_day (employee : Employee) (day : Weekday)
    (day_counts : DayCount) (schedule : MonthlySchedule) (d : Weekday)
    (h : (idsOn schedule d).Nodup) :
    (idsOn ((add_to_day employee day day_counts schedule).2) d).Nodup := by
  unfold add_to_day
  by_cases hc : ((schedule day).any fun e => e.id == employee.id) = true
  · rw [if_pos hc]; exact h
  · rw [if_neg hc]
    show (List.map (fun e => e.id)
        (if d = day then schedule d ++ [employee] else schedule d)).Nodup
    by_cases hd : d = day
    · rw [if_pos hd]
      subst hd
      simp only [List.map_append, List.map_cons, List.map_nil]
      rw [List.nodup_append]
      refine ⟨h, List.nodup_singleton _, ?_⟩
      intro a ha hb
      simp only [List.mem_singleton] at hb
      subst hb
      exact hc ((any_id_iff _ _).mpr ha)
    · rw [if_neg hd]
      exact h

theorem insert_days_cons (employee : Employee) (day : Weekday) (days : List Weekday)
    (day_counts : DayCount) (schedule : MonthlySchedule) :
    insert_days employee (day :: days) day_counts schedule =
      insert_days employee days (add_to_day employee day day_counts schedule).1
        (add_to_day employee day day_counts schedule).2 := rfl

theorem mem_idsOn_insert_days (employee : Employee) (days : List Weekday) :
    ∀ (day_counts : DayCount) (schedule : MonthlySchedule) (i : Nat) (d : Weekday),
      i ∈ idsOn ((insert_days employee days day_counts schedule).2) d ↔
        i ∈ idsOn schedule d ∨ (i = employee.id ∧ d ∈ days) := by
  induction days with
  | nil =>
    intro day_counts schedule i d
    simp [insert_days]
  | cons day rest ih =>
    intro day_counts schedule i d
    rw [insert_days_cons]
    rw [ih]
    rw [mem_idsOn_add_to_day]
    simp only [List.mem_cons]
    tauto

theorem nodup_idsOn_insert_days (employee : Employee) (days : List Weekday) :
    ∀ (day_counts : DayCount) (schedule : MonthlySchedule) (d : Weekday),
      (idsOn schedule d).Nodup →
      (idsOn ((insert_days employee days day_counts schedule).2) d).Nodup := by
  induction days with
  | nil =>
    intro day_counts schedule d h
    simpa [insert_days] using h
  | cons day rest ih =>
    intro day_counts schedule d h
    rw [insert_days_cons]
    exact ih _ _ d (nodup_idsOn_add_to_day employee day day_counts schedule d h)

/-! ## The selection loop: first-minimum characterization -/

theorem select_loop_spec (day_counts : DayCount) (freqs : Weekday → ℚ) :
    ∀ (l : List DayCombination) (b : DayCombination),
      ((l.foldl (select_step day_counts freqs) (b, some (combo_score day_counts freqs b))).1 = b ∧
        ∀ x ∈ l, combo_score day_counts freqs b ≤ combo_score day_counts freqs x) ∨
      (∃ pre c post, l = pre ++ c :: post ∧
        (l.foldl (select_step day_counts freqs) (b, some (combo_score day_counts freqs b))).1 = c ∧
        combo_score day_counts freqs c < combo_score day_counts freqs b ∧
        (∀ x ∈ pre, combo_score day_counts freqs c < combo_score day_counts freqs x) ∧
        (∀ x ∈ post, combo_score day_counts freqs c ≤ combo_score day_counts freqs x)) := by
  intro l
  induction l with
  | nil =>
    intro b
    left
    exact ⟨rfl, by simp⟩
  | cons x rest ih =>
    intro b
    by_cases hlt : combo_score day_counts freqs x < combo_score day_counts freqs b
    · have hstep : select_step day_counts freqs (b, some (combo_score day_counts freqs b)) x =
          (x, some (combo_score day_counts freqs x)) := by
        simp [select_step, hlt]
      rw [List.foldl_cons, hstep]
      rcases ih x with ⟨hres, hall⟩ | ⟨pre, c, post, heq, hres, hcx, hpre, hpost⟩
      · right
        exact ⟨[], x, rest, by simp, hres, hlt, by simp, hall⟩
      · right
        refine ⟨x :: pre, c, post, by simp [heq], hres, lt_trans hcx hlt, ?_, hpost⟩
        intro y hy
        rcases List.mem_cons.mp hy with rfl | hy
        · exact hcx
        · exact hpre y hy
    · have hstep : select_step day_counts freqs (b, some (combo_score day_counts freqs b)) x =
          (b, some (combo_score day_counts freqs b)) := by
        simp [select_step, hlt]
      rw [List.foldl_cons, hstep]
      rcases ih b with ⟨hres, hall⟩ | ⟨pre, c, post, heq, hres, hcx, hpre, hpost⟩
      · left
        refine ⟨hres, ?_⟩
        intro y hy
        rcases List.mem_cons.mp hy with rfl | hy
        · exact not_lt.mp hlt
        · exact hall y hy
      · right
        refine ⟨x :: pre, c, post, by simp [heq], hres, hcx, ?_, hpost⟩
        intro y hy
        rcases List.mem_cons.mp hy with rfl | hy
        · exact lt_of_lt_of_le hcx (not_lt.mp hlt)
        · exact hpre y hy

theorem find_best_spec (day_counts : DayCount) (employee : Employee)
    (past_schedules : PastSchedules) (l : List DayCombination) (h : l ≠ []) :
    ∃ c pre post,
      find_best_day_combination l day_counts employee past_schedules = some c ∧
      l = pre ++ c :: post ∧
      (∀ x ∈ pre,
        combo_score day_counts (past_day_frequencies past_schedules employee.id) c <
          combo_score day_counts (past_day_frequencies past_schedules employee.id) x) ∧
      (∀ x ∈ post,
        combo_score day_counts (past_day_frequencies past_schedules employee.id) c ≤
          combo_score day_counts (past_day_frequencies past_schedules employee.id) x) := by
  match l with
  | [] => exact absurd rfl h
  | c0 :: rest =>
    have hstep : select_step day_counts (past_day_frequencies past_schedules employee.id)
        (c0, none) c0 =
        (c0, some (combo_score day_counts
          (past_day_frequencies past_schedules employee.id) c0)) := rfl
    have hfb : find_best_day_combination (c0 :: rest) day_counts employee past_schedules =
        some ((rest.foldl (select_step day_counts
          (past_day_frequencies past_schedules employee.id))
          (c0, some (combo_score day_counts
            (past_day_frequencies past_schedules employee.id) c0))).1) := by
      simp only [find_best_day_combination, List.foldl_cons, hstep]
    rcases select_loop_spec day_counts (past_day_frequencies past_schedules employee.id)
        rest c0 with ⟨hres, hall⟩ | ⟨pre, c, post, heq, hres, hcx, hpre, hpost⟩
    · exact ⟨c0, [], rest, by rw [hfb, hres], by simp, by simp, hall⟩
    · refine ⟨c, c0 :: pre, post, by rw [hfb, hres], by simp [heq], ?_, hpost⟩
      intro y hy
      rcases List.mem_cons.mp hy with rfl | hy
      · exact hcx
      · exact hpre y hy

theorem find_best_mem (day_counts : DayCount) (employee : Employee)
    (past_schedules : PastSchedules) (l : List DayCombination) (c : DayCombination)
    (h : find_best_day_combination l day_counts employee past_schedules = some c) :
    c ∈ l := by
  rcases l with _ | ⟨c0, rest⟩
  · simp [find_best_day_combination] at h
  · obtain ⟨c', pre, post, hc', heq, -, -⟩ :=
      find_best_spec day_counts employee past_schedules (c0 :: rest) (by simp)
    rw [h] at hc'
    obtain rfl : c = c' := by injection hc'
    rw [heq]
    exact List.mem_append.mpr (Or.inr (List.mem_cons_self _ _))

theorem find_best_min (day_counts : DayCount) (employee : Employee)
    (past_schedules : PastSchedules) (l : List DayCombination) (c : DayCombination)
    (h : find_best_day_combination l day_counts employee past_schedules = some c) :
    ∀ x ∈ l,
      combo_score day_counts (past_day_frequencies past_schedules employee.id) c ≤
        combo_score day_counts (past_day_frequencies past_schedules employee.id) x := by
  rcases l with _ | ⟨c0, rest⟩
  · simp [find_best_day_combination] at h
  · obtain ⟨c', pre, post, hc', heq, hpre, hpost⟩ :=
      find_best_spec day_counts employee past_schedules (c0 :: rest) (by simp)
    rw [h] at hc'
    obtain rfl : c = c' := by injection hc'
    intro x hx
    rw [heq] at hx
    rcases List.mem_append.mp hx with hx | hx
    · exact le_of_lt (hpre x hx)
    · rcases List.mem_cons.mp hx with rfl | hx
      · exact le_rfl
      · exact hpost x hx

theorem find_best_isSome (day_counts : DayCount) (employee : Employee)
    (past_schedules : PastSchedules) (l : List DayCombination) (h : l ≠ []) :
    ∃ c, find_best_day_combination l day_counts employee past_schedules = some c := by
  obtain ⟨c, -, -, hc, -, -, -⟩ := find_best_spec day_counts employee past_schedules l h
  exact ⟨c, hc⟩

/-! ## The flexible bucket loop -/

theorem process_group_other (shc : Nat → List DayCombination → List DayCombination)
    (available : List DayCombination) (past_schedules : PastSchedules) (i : Nat) :
    ∀ (group : List Employee), (∀ e ∈ group, e.id ≠ i) →
    ∀ (n : Nat) (day_counts : DayCount) (schedule : MonthlySchedule) (d : Weekday),
      i ∈ idsOn ((process_group shc available past_schedules group n day_counts schedule).2.2) d ↔
        i ∈ idsOn schedule d := by
  intro group
  induction group with
  | nil =>
    intro h n day_counts schedule d
    simp [process_group]
  | cons e rest ih =>
    intro h n day_counts schedule d
    have he : e.id ≠ i := h e (List.mem_cons_self _ _)
    have hrest : ∀ x ∈ rest, x.id ≠ i := fun x hx => h x (List.mem_cons_of_mem _ hx)
    cases hfb : find_best_day_combination (shc n available) day_counts e past_schedules with
    | none =>
      rw [show process_group shc available past_schedules (e :: rest) n day_counts schedule =
        process_group shc available past_schedules rest (n + 1) day_counts schedule by
          simp [process_group, hfb]]
      exact ih hrest (n + 1) day_counts schedule d
    | some best =>
      rw [show process_group shc available past_schedules (e :: rest) n day_counts schedule =
        process_group shc available past_schedules rest (n + 1)
          (insert_days e best.days day_counts schedule).1
          (insert_days e best.days day_counts schedule).2 by
          simp [process_group, hfb]]
      rw [ih hrest (n + 1) _ _ d, mem_idsOn_insert_days]
      constructor
      · rintro (hm | ⟨rfl, -⟩)
        · exact hm
        · exact absurd rfl he
      · exact Or.inl

theorem process_group_nodup (shc : Nat → List DayCombination → List DayCombination)
    (available : List DayCombination) (past_schedules : PastSchedules) :
    ∀ (group : List Employee) (n : Nat) (day_counts : DayCount) (schedule : MonthlySchedule),
      (∀ d, (idsOn schedule d).Nodup) →
      ∀ d, (idsOn ((process_group shc available past_schedules group n day_counts
        schedule).2.2) d).Nodup := by
  intro group
  induction group with
  | nil =>
    intro n day_counts schedule h d
    simpa [process_group] using h d
  | cons e rest ih =>
    intro n day_counts schedule h d
    cases hfb : find_best_day_combination (shc n available) day_counts e past_schedules with
    | none =>
      rw [show process_group shc available past_schedules (e :: rest) n day_counts schedule =
        process_group shc available past_schedules rest (n + 1) day_counts schedule by
          simp [process_group, hfb]]
      exact ih (n + 1) day_counts schedule h d
    | some best =>
      rw [show process_group shc available past_schedules (e :: rest) n day_counts schedule =
        process_group shc available past_schedules rest (n + 1)
          (insert_days e best.days day_counts schedule).1
          (insert_days e best.days day_counts schedule).2 by
          simp [process_group, hfb]]
      exact ih (n + 1) _ _
        (fun d' => nodup_idsOn_insert_days e best.days day_counts schedule d' (h d')) d

theorem process_group_single (shc : Nat → List DayCombination → List DayCombination)
    (hshc : IsShuffler shc) (available : List DayCombination)
    (past_schedules : PastSchedules) (hav : available ≠ []) (employee : Employee) :
    ∀ (pre : List Employee) (post : List Employee),
      (∀ x ∈ pre, x.id ≠ employee.id) → (∀ x ∈ post, x.id ≠ employee.id) →
    ∀ (n : Nat) (day_counts : DayCount) (schedule : MonthlySchedule),
      (∀ d, employee.id ∉ idsOn schedule d) →
    ∃ combo ∈ available, ∀ d,
      employee.id ∈ idsOn ((process_group shc available past_schedules
        (pre ++ employee :: post) n day_counts schedule).2.2) d ↔ d ∈ combo.days := by
  intro pre
  induction pre with
  | nil =>
    intro post hpre hpost n day_counts schedule hs
    have hne : shc n available ≠ [] := by
      intro hnil
      apply hav
      have hp := hshc n available
      rw [hnil] at hp
      exact hp.symm.eq_nil
    obtain ⟨best, hfb⟩ :=
      find_best_isSome day_counts employee past_schedules (shc n available) hne
    have hmem : best ∈ available :=
      (hshc n available).mem_iff.mp
        (find_best_mem day_counts employee past_schedules (shc n available) best hfb)
    refine ⟨best, hmem, ?_⟩
    intro d
    rw [show process_group shc available past_schedules
        (([] : List Employee) ++ employee :: post) n day_counts schedule =
      process_group shc available past_schedules post (n + 1)
        (insert_days employee best.days day_counts schedule).1
        (insert_days employee best.days day_counts schedule).2 by
        simp [process_group, hfb]]
    rw [process_group_other shc available past_schedules employee.id post hpost
      (n + 1) _ _ d]
    rw [mem_idsOn_insert_days]
    constructor
    · rintro (hm | ⟨-, hd⟩)
      · exact absurd hm (hs d)
      · exact hd
    · intro hd
      exact Or.inr ⟨rfl, hd⟩
  | cons x pre' ih =>
    intro post hpre hpost n day_counts schedule hs
    have hx : x.id ≠ employee.id := hpre x (List.mem_cons_self _ _)
    have hpre' : ∀ y ∈ pre', y.id ≠ employee.id := fun y hy =>
      hpre y (List.mem_cons_of_mem _ hy)
    cases hfb : find_best_day_combination (shc n available) day_counts x past_schedules with
    | none =>
      rw [show process_group shc available past_schedules
          ((x :: pre') ++ employee :: post) n day_counts schedule =
        process_group shc available past_schedules (pre' ++ employee :: post) (n + 1)
          day_counts schedule by simp [process_group, hfb]]
      exact ih post hpre' hpost (n + 1) day_counts schedule hs
    | some best =>
      rw [show process_group shc available past_schedules
          ((x :: pre') ++ employee :: post) n day_counts schedule =
        process_group shc available past_schedules (pre' ++ employee :: post) (n + 1)
          (insert_days x best.days day_counts schedule).1
          (insert_days x best.days day_counts schedule).2 by
          simp [process_group, hfb]]
      refine ih post hpre' hpost (n + 1) _ _ ?_
      intro d
      rw [mem_idsOn_insert_days]
      rintro (hm | ⟨hid, -⟩)
      · exact hs d hm
      · exact hx hid.symm

/-! ## The fixed phase -/

theorem process_fixed_flexible (employees : List Employee) :
    ∀ (day_counts : DayCount) (schedule : MonthlySchedule),
      (process_fixed_schedules employees day_counts schedule).1.1 =
        employees.filter (fun e => e.fixed_days.isEmpty) := by
  induction employees with
  | nil => intro day_counts schedule; simp [process_fixed_schedules]
  | cons e rest ih =>
    intro day_counts schedule
    by_cases h : e.fixed_days.isEmpty
    · simp [process_fixed_schedules, h, List.filter_cons, ih]
    · simp only [Bool.not_eq_true] at h
      simp [process_fixed_schedules, h, List.filter_cons, ih]

theorem process_fixed_mem (i : Nat) (d : Weekday) :
    ∀ (employees : List Employee) (day_counts : DayCount) (schedule : MonthlySchedule),
      i ∈ idsOn ((process_fixed_schedules employees day_counts schedule).2.2) d ↔
        i ∈ idsOn schedule d ∨
          ∃ e ∈ employees, e.fixed_days.isEmpty = false ∧ e.id = i ∧ d ∈ e.fixed_days := by
  intro employees
  induction employees with
  | nil =>
    intro day_counts schedule
    simp [process_fixed_schedules]
  | cons e rest ih =>
    intro day_counts schedule
    by_cases h : e.fixed_days.isEmpty
    · rw [show (process_fixed_schedules (e :: rest) day_counts schedule).2.2 =
        (process_fixed_schedules rest day_counts schedule).2.2 by
          simp [process_fixed_schedules, h]]
      rw [ih]
      simp only [List.exists_mem_cons_iff, h]
      tauto
    · simp only [Bool.not_eq_true] at h
      rw [show (process_fixed_schedules (e :: rest) day_counts schedule).2.2 =
        (process_fixed_schedules rest
          (insert_days e e.fixed_days day_counts schedule).1
          (insert_days e e.fixed_days day_counts schedule).2).2.2 by
          simp [process_fixed_schedules, h]]
      rw [ih, mem_idsOn_insert_days]
      simp only [List.exists_mem_cons_iff]
      constructor
      · rintro ((hm | ⟨rfl, hd⟩) | hrest)
        · exact Or.inl hm
        · exact Or.inr (Or.inl ⟨h, rfl, hd⟩)
        · exact Or.inr (Or.inr hrest)
      · rintro (hm | (⟨-, rfl, hd⟩ | hrest))
        · exact Or.inl (Or.inl hm)
        · exact Or.inl (Or.inr ⟨rfl, hd⟩)
        · exact Or.inr hrest

theorem process_fixed_nodup :
    ∀ (employees : List Employee) (day_counts : DayCount) (schedule : MonthlySchedule),
      (∀ d, (idsOn schedule d).Nodup) →
      ∀ d, (idsOn ((process_fixed_schedules employees day_counts schedule).2.2) d).Nodup := by
  intro employees
  induction employees with
  | nil =>
    intro day_counts schedule h d
    simpa [process_fixed_schedules] using h d
  | cons e rest ih =>
    intro day_counts schedule h d
    by_cases he : e.fixed_days.isEmpty
    · rw [show (process_fixed_schedules (e :: rest) day_counts schedule).2.2 =
        (process_fixed_schedules rest day_counts schedule).2.2 by
          simp [process_fixed_schedules, he]]
      exact ih day_counts schedule h d
    · simp only [Bool.not_eq_true] at he
      rw [show (process_fixed_schedules (e :: rest) day_counts schedule).2.2 =
        (process_fixed_schedules rest
          (insert_days e e.fixed_days day_counts schedule).1
          (insert_days e e.fixed_days day_counts schedule).2).2.2 by
          simp [process_fixed_schedules, he]]
      exact ih _ _
        (fun d' => nodup_idsOn_insert_days e e.fixed_days day_counts schedule d' (h d')) d

/-! ## Normalizing the quota-key loop

`process_flexible_employees` folds over the distinct `required_days`
values sorted in descending order.  Keys without a catalog entry are
skipped, and keys whose bucket is empty do nothing, so the fold is
equal to the fold over the fixed descending key list `[5, 3, 2, 1]`. -/

instance : IsTotal Nat (fun a b => b ≤ a) := ⟨fun a b => le_total b a⟩

instance : IsTrans Nat (fun a b => b ≤ a) := ⟨fun _ _ _ h₁ h₂ => le_trans h₂ h₁⟩

instance : IsAntisymm Nat (fun a b => b ≤ a) := ⟨fun _ _ h₁ h₂ => le_antisymm h₂ h₁⟩

theorem foldl_filter_of_noop {α β : Type _} (step : β → α → β) (p : α → Bool)
    (hnoop : ∀ st a, p a = false → step st a = st) :
    ∀ (l : List α) (init : β), l.foldl step init = (l.filter p).foldl step init := by
  intro l
  induction l with
  | nil => intro init; rfl
  | cons a l ih =>
    intro init
    by_cases h : p a = true
    · rw [List.foldl_cons, List.filter_cons_of_pos h, List.foldl_cons, ih]
    · have h' : p a = false := by simpa using h
      rw [List.foldl_cons, hnoop init a h', List.filter_cons_of_neg (by simp [h']), ih]

theorem day_combinations_isSome (k : Nat) :
    (day_combinations k).isSome = true ↔ (k = 1 ∨ k = 2 ∨ k = 3 ∨ k = 5) := by
  unfold day_combinations
  split_ifs with h1 h2 h3 h4 <;> simp_all

theorem day_combinations_ne_nil (k : Nat) (cs : List DayCombination)
    (h : day_combinations k = some cs) : cs ≠ [] := by
  unfold day_combinations at h
  split_ifs at h <;> simp only [Option.some.injEq] at h <;> subst h <;> simp [combos1,
    combos2, combos3, combos5]

theorem process_key_none (shg : Nat → List Employee → List Employee)
    (shc : Nat → List DayCombination → List DayCombination)
    (flexible : List Employee) (past_schedules : PastSchedules)
    (st : Nat × DayCount × MonthlySchedule) (k : Nat)
    (h : day_combinations k = none) :
    process_key shg shc flexible past_schedules st k = st := by
  simp [process_key, h]

theorem process_key_empty (shg : Nat → List Employee → List Employee)
    (shc : Nat → List DayCombination → List DayCombination)
    (hshg : IsShuffler shg) (flexible : List Employee) (past_schedules : PastSchedules)
    (st : Nat × DayCount × MonthlySchedule) (k : Nat)
    (h : flexible.filter (fun e => e.required_days == k) = []) :
    process_key shg shc flexible past_schedules st k = st := by
  unfold process_key
  cases hdc : day_combinations k with
  | none => rfl
  | some available =>
    have hg : shg k (flexible.filter (fun e => e.required_days == k)) = [] := by
      rw [h]
      exact (hshg k []).eq_nil
    rw [hg]
    rfl

theorem process_flexible_canonical (shg : Nat → List Employee → List Employee)
    (shc : Nat → List DayCombination → List DayCombination)
    (hshg : IsShuffler shg) (flexible : List Employee) (past_schedules : PastSchedules)
    (day_counts : DayCount) (schedule : MonthlySchedule) :
    process_flexible_employees shg shc flexible past_schedules day_counts schedule =
      (([5, 3, 2, 1] : List Nat).foldl (process_key shg shc flexible past_schedules)
        (0, day_counts, schedule)).2 := by
  have hL : (List.insertionSort (fun a b => b ≤ a)
        ((flexible.map (fun e => e.required_days)).dedup)).foldl
        (process_key shg shc flexible past_schedules) (0, day_counts, schedule) =
      ((List.insertionSort (fun a b => b ≤ a)
        ((flexible.map (fun e => e.required_days)).dedup)).filter
          (fun k => (day_combinations k).isSome)).foldl
        (process_key shg shc flexible past_schedules) (0, day_counts, schedule) :=
    foldl_filter_of_noop _ _
      (fun st a ha => by
        cases hdc : day_combinations a with
        | none => exact process_key_none shg shc flexible past_schedules st a hdc
        | some cs => rw [hdc] at ha; simp at ha) _ _
  have hR : (([5, 3, 2, 1] : List Nat).foldl
        (process_key shg shc flexible past_schedules) (0, day_counts, schedule)) =
      ((([5, 3, 2, 1] : List Nat).filter
          (fun k => flexible.any (fun e => e.required_days == k))).foldl
        (process_key shg shc flexible past_schedules) (0, day_counts, schedule)) :=
    foldl_filter_of_noop _ _
      (fun st a ha => process_key_empty shg shc hshg flexible past_schedules st a
        (List.filter_eq_nil_iff.mpr (by
          intro e he
          have := List.any_eq_false.mp ha e he
          simpa using this))) _ _
  have hkeysnodup : (List.insertionSort (fun a b => b ≤ a)
      ((flexible.map (fun e => e.required_days)).dedup)).Nodup :=
    (List.perm_insertionSort _ _).nodup_iff.mpr (List.nodup_dedup _)
  have hkeyssorted : List.Sorted (fun a b => b ≤ a)
      (List.insertionSort (fun a b => b ≤ a)
        ((flexible.map (fun e => e.required_days)).dedup)) :=
    List.sorted_insertionSort _ _
  have hfixsorted : List.Sorted (fun a b => b ≤ a) ([5, 3, 2, 1] : List Nat) := by
    decide
  have hfixnodup : ([5, 3, 2, 1] : List Nat).Nodup := by decide
  -- the two filtered key lists are equal: same members, both sorted descending, no duplicates
  have hEq : (List.insertionSort (fun a b => b ≤ a)
        ((flexible.map (fun e => e.required_days)).dedup)).filter
          (fun k => (day_combinations k).isSome) =
      (([5, 3, 2, 1] : List Nat).filter
        (fun k => flexible.any (fun e => e.required_days == k))) := by
    apply List.eq_of_perm_of_sorted (r := fun a b => b ≤ a)
    · rw [List.perm_ext_iff_of_nodup (hkeysnodup.filter _) (hfixnodup.filter _)]
      intro k
      simp only [List.mem_filter, List.mem_insertionSort, List.mem_dedup, List.mem_map]
      constructor
      · rintro ⟨⟨e, he, rfl⟩, hsome⟩
        refine ⟨?_, List.any_eq_true.mpr ⟨e, he, by simp⟩⟩
        rcases (day_combinations_isSome _).mp (by simpa using hsome) with h | h | h | h <;>
          simp [h]
      · rintro ⟨hk, hany⟩
        obtain ⟨e, he, heq⟩ := List.any_eq_true.mp hany
        have hek : e.required_days = k := beq_iff_eq.mp heq
        refine ⟨⟨e, he, hek⟩, ?_⟩
        have hk' : k = 1 ∨ k = 2 ∨ k = 3 ∨ k = 5 := by
          simp only [List.mem_cons, List.not_mem_nil, or_false] at hk
          tauto
        simpa using (day_combinations_isSome k).mpr hk'
    · exact hkeyssorted.filter _
    · exact hfixsorted.filter _
  show ((List.insertionSort (fun a b => b ≤ a)
      ((flexible.map (fun e => e.required_days)).dedup)).foldl
      (process_key shg shc flexible past_schedules) (0, day_counts, schedule)).2 = _
  rw [hL, hEq, ← hR]

/-! ## Membership through the quota-key fold -/

theorem process_key_mem_keep (shg : Nat → List Employee → List Employee)
    (shc : Nat → List DayCombination → List DayCombination) (hshg : IsShuffler shg)
    (flexible : List Employee) (past_schedules : PastSchedules) (i : Nat) (k : Nat)
    (h : ∀ x ∈ flexible, x.id = i → x.required_days ≠ k)
    (st : Nat × DayCount × MonthlySchedule) (d : Weekday) :
    i ∈ idsOn (process_key shg shc flexible past_schedules st k).2.2 d ↔
      i ∈ idsOn st.2.2 d := by
  unfold process_key
  cases hdc : day_combinations k with
  | none => exact Iff.rfl
  | some available =>
    apply process_group_other
    intro e he
    have hef : e ∈ flexible.filter (fun x => x.required_days == k) :=
      (hshg k _).subset he
    obtain ⟨hefl, hek⟩ := List.mem_filter.mp hef
    intro hid
    exact h e hefl hid (beq_iff_eq.mp hek)

theorem process_key_nodup (shg : Nat → List Employee → List Employee)
    (shc : Nat → List DayCombination → List DayCombination)
    (flexible : List Employee) (past_schedules : PastSchedules)
    (st : Nat × DayCount × MonthlySchedule) (k : Nat)
    (h : ∀ d, (idsOn st.2.2 d).Nodup) :
    ∀ d, (idsOn (process_key shg shc flexible past_schedules st k).2.2 d).Nodup := by
  intro d
  unfold process_key
  cases hdc : day_combinations k with
  | none => exact h d
  | some available => exact process_group_nodup shc available past_schedules _ _ _ _ h d

theorem process_key_single (shg : Nat → List Employee → List Employee)
    (shc : Nat → List DayCombination → List DayCombination)
    (hshg : IsShuffler shg) (hshc : IsShuffler shc)
    (flexible : List Employee) (past_schedules : PastSchedules) (employee : Employee)
    (hmem : employee ∈ flexible)
    (hids : (flexible.map (fun e => e.id)).Nodup)
    (combos : List DayCombination)
    (hcat : day_combinations employee.required_days = some combos)
    (st : Nat × DayCount × MonthlySchedule)
    (hs : ∀ d, employee.id ∉ idsOn st.2.2 d) :
    ∃ combo ∈ combos, ∀ d,
      employee.id ∈ idsOn (process_key shg shc flexible past_schedules st
        employee.required_days).2.2 d ↔ d ∈ combo.days := by
  have hredkey : process_key shg shc flexible past_schedules st employee.required_days =
      process_group shc combos past_schedules
        (shg employee.required_days
          (flexible.filter (fun e => e.required_days == employee.required_days)))
        st.1 st.2.1 st.2.2 := by
    unfold process_key
    rw [hcat]
  have hfmem : employee ∈ flexible.filter
      (fun e => e.required_days == employee.required_days) :=
    List.mem_filter.mpr ⟨hmem, by simp⟩
  have hgperm := hshg employee.required_days
    (flexible.filter (fun e => e.required_days == employee.required_days))
  have hgmem : employee ∈ shg employee.required_days
      (flexible.filter (fun e => e.required_days == employee.required_days)) :=
    hgperm.mem_iff.mpr hfmem
  obtain ⟨pre, post, hsplit⟩ := List.append_of_mem hgmem
  have hgnodup : (shg employee.required_days
      (flexible.filter (fun e => e.required_days == employee.required_days))).Nodup :=
    hgperm.nodup_iff.mpr ((hids.of_map _).filter _)
  rw [hsplit] at hgnodup
  rw [List.nodup_append] at hgnodup
  obtain ⟨hprend, hconsnd, hdisj⟩ := hgnodup
  have hepre : employee ∉ pre := fun hp => hdisj hp (List.mem_cons_self _ _)
  have hepost : employee ∉ post := (List.nodup_cons.mp hconsnd).1
  have hinj := List.inj_on_of_nodup_map hids
  have hxeq : ∀ x, x ∈ shg employee.required_days
      (flexible.filter (fun e => e.required_days == employee.required_days)) →
      x.id = employee.id → x = employee := by
    intro x hx hxid
    have hxfl : x ∈ flexible := (List.mem_filter.mp (hgperm.subset hx)).1
    exact hinj hxfl hmem hxid
  have hpre : ∀ x ∈ pre, x.id ≠ employee.id := by
    intro x hx hxid
    have hxg : x ∈ shg employee.required_days
        (flexible.filter (fun e => e.required_days == employee.required_days)) := by
      rw [hsplit]
      exact List.mem_append_left _ hx
    exact hepre (hxeq x hxg hxid ▸ hx)
  have hpost : ∀ x ∈ post, x.id ≠ employee.id := by
    intro x hx hxid
    have hxg : x ∈ shg employee.required_days
        (flexible.filter (fun e => e.required_days == employee.required_days)) := by
      rw [hsplit]
      exact List.mem_append_right _ (List.mem_cons_of_mem _ hx)
    exact hepost (hxeq x hxg hxid ▸ hx)
  have hav : combos ≠ [] := day_combinations_ne_nil _ _ hcat
  obtain ⟨combo, hcombo, hiff⟩ := process_group_single shc hshc combos past_schedules hav
    employee pre post hpre hpost st.1 st.2.1 st.2.2 hs
  refine ⟨combo, hcombo, ?_⟩
  intro d
  rw [hredkey, hsplit]
  exact hiff d

theorem foldl_keys_keep (shg : Nat → List Employee → List Employee)
    (shc : Nat → List DayCombination → List DayCombination) (hshg : IsShuffler shg)
    (flexible : List Employee) (past_schedules : PastSchedules) (i : Nat) :
    ∀ (keys : List Nat), (∀ x ∈ flexible, x.id = i → x.required_days ∉ keys) →
    ∀ (st : Nat × DayCount × MonthlySchedule) (d : Weekday),
      i ∈ idsOn ((keys.foldl (process_key shg shc flexible past_schedules) st)).2.2 d ↔
        i ∈ idsOn st.2.2 d := by
  intro keys
  induction keys with
  | nil => intro h st d; exact Iff.rfl
  | cons k rest ih =>
    intro h st d
    rw [List.foldl_cons]
    rw [ih (fun x hx hid => fun hmem =>
      h x hx hid (List.mem_cons_of_mem _ hmem)) _ d]
    exact process_key_mem_keep shg shc hshg flexible past_schedules i k
      (fun x hx hid hk => h x hx hid (hk ▸ List.mem_cons_self _ _)) st d

theorem foldl_keys_nodup (shg : Nat → List Employee → List Employee)
    (shc : Nat → List DayCombination → List DayCombination)
    (flexible : List Employee) (past_schedules : PastSchedules) :
    ∀ (keys : List Nat) (st : Nat × DayCount × MonthlySchedule),
      (∀ d, (idsOn st.2.2 d).Nodup) →
      ∀ d, (idsOn ((keys.foldl (process_key shg shc flexible past_schedules) st)).2.2
        d).Nodup := by
  intro keys
  induction keys with
  | nil => intro st h d; exact h d
  | cons k rest ih =>
    intro st h d
    rw [List.foldl_cons]
    exact ih _ (process_key_nodup shg shc flexible past_schedules st k h) d

theorem foldl_keys_single (shg : Nat → List Employee → List Employee)
    (shc : Nat → List DayCombination → List DayCombination)
    (hshg : IsShuffler shg) (hshc : IsShuffler shc)
    (flexible : List Employee) (past_schedules : PastSchedules) (employee : Employee)
    (hmem : employee ∈ flexible)
    (hids : (flexible.map (fun e => e.id)).Nodup)
    (combos : List DayCombination)
    (hcat : day_combinations employee.required_days = some combos) :
    ∀ (keys : List Nat) (st : Nat × DayCount × MonthlySchedule),
      (∀ d, employee.id ∉ idsOn st.2.2 d) →
      employee.required_days ∈ keys → keys.Nodup →
    ∃ combo ∈ combos, ∀ d,
      employee.id ∈ idsOn ((keys.foldl (process_key shg shc flexible past_schedules)
        st)).2.2 d ↔ d ∈ combo.days := by
  intro keys
  induction keys with
  | nil => intro st hs hmemk; exact absurd hmemk (List.not_mem_nil _)
  | cons k rest ih =>
    intro st hs hmemk hnodup
    rw [List.foldl_cons]
    by_cases hk : employee.required_days = k
    · subst hk
      obtain ⟨combo, hcombo, hiff⟩ := process_key_single shg shc hshg hshc flexible
        past_schedules employee hmem hids combos hcat st hs
      refine ⟨combo, hcombo, ?_⟩
      intro d
      have hnotin : employee.required_days ∉ rest := (List.nodup_cons.mp hnodup).1
      rw [foldl_keys_keep shg shc hshg flexible past_schedules employee.id rest
        (fun x hx hid => by
          have hx' : x = employee := List.inj_on_of_nodup_map hids hx hmem hid
          rw [hx']
          exact hnotin) _ d]
      exact hiff d
    · have hmemk' : employee.required_days ∈ rest := by
        rcases List.mem_cons.mp hmemk with h | h
        · exact absurd h hk
        · exact h
      refine ih _ ?_ hmemk' (List.nodup_cons.mp hnodup).2
      intro d
      rw [process_key_mem_keep shg shc hshg flexible past_schedules employee.id k
        (fun x hx hid hxk => by
          have hx' : x = employee := List.inj_on_of_nodup_map hids hx hmem hid
          rw [hx'] at hxk
          exact hk hxk) st d]
      exact hs d

/-! ## Generate-level membership -/

theorem idsOn_empty (d : Weekday) : idsOn (fun _ => []) d = [] := rfl

theorem generate_eq (shg : Nat → List Employee → List Employee)
    (shc : Nat → List DayCombination → List DayCombination)
    (employees : List Employee) (past_schedules : PastSchedules) :
    generate_balanced_schedule shg shc employees past_schedules =
      (process_flexible_employees shg shc
        (process_fixed_schedules employees (fun _ => 0) (fun _ => [])).1.1 past_schedules
        (process_fixed_schedules employees (fun _ => 0) (fun _ => [])).2.1
        (process_fixed_schedules employees (fun _ => 0) (fun _ => [])).2.2).2 := rfl

theorem generate_mem_fixed (shg : Nat → List Employee → List Employee)
    (shc : Nat → List DayCombination → List DayCombination)
    (hshg : IsShuffler shg)
    (employees : List Employee) (past_schedules : PastSchedules) (i : Nat)
    (hflex : ∀ x ∈ employees, x.fixed_days.isEmpty = true → x.id ≠ i) (d : Weekday) :
    i ∈ idsOn (generate_balanced_schedule shg shc employees past_schedules) d ↔
      ∃ e ∈ employees, e.fixed_days.isEmpty = false ∧ e.id = i ∧ d ∈ e.fixed_days := by
  rw [generate_eq]
  rw [process_flexible_canonical shg shc hshg _ _ _ _]
  rw [process_fixed_flexible]
  rw [foldl_keys_keep shg shc hshg _ _ i _
    (fun x hx hid => absurd hid
      (hflex x (List.mem_filter.mp hx).1 (List.mem_filter.mp hx).2)) _ d]
  rw [process_fixed_mem]
  simp [idsOn_empty]

theorem process_flexible_eq (shg : Nat → List Employee → List Employee)
    (shc : Nat → List DayCombination → List DayCombination)
    (flexible : List Employee) (past_schedules : PastSchedules)
    (day_counts : DayCount) (schedule : MonthlySchedule) :
    process_flexible_employees shg shc flexible past_schedules day_counts schedule =
      ((List.insertionSort (fun a b => b ≤ a)
        ((flexible.map (fun e => e.required_days)).dedup)).foldl
        (process_key shg shc flexible past_schedules) (0, day_counts, schedule)).2 := rfl

theorem generate_mem_flexible (shg : Nat → List Employee → List Employee)
    (shc : Nat → List DayCombination → List DayCombination)
    (hshg : IsShuffler shg) (hshc : IsShuffler shc)
    (employees : List Employee) (past_schedules : PastSchedules) (employee : Employee)
    (hids : (employees.map (fun e => e.id)).Nodup)
    (hmem : employee ∈ employees) (hfd : employee.fixed_days = [])
    (combos : List DayCombination)
    (hcat : day_combinations employee.required_days = some combos) :
    ∃ combo ∈ combos, ∀ d,
      employee.id ∈ idsOn (generate_balanced_schedule shg shc employees past_schedules) d ↔
        d ∈ combo.days := by
  have hflexeq := process_fixed_flexible employees (fun _ => 0) (fun _ => [])
  have hmemflex : employee ∈ (process_fixed_schedules employees
      (fun _ => 0) (fun _ => [])).1.1 := by
    rw [hflexeq]
    exact List.mem_filter.mpr ⟨hmem, by simp [hfd]⟩
  have hidsflex : (((process_fixed_schedules employees (fun _ => 0) (fun _ => [])).1.1).map
      (fun e => e.id)).Nodup := by
    rw [hflexeq]
    exact List.Nodup.sublist ((List.filter_sublist _).map _) hids
  have hstart : ∀ d, employee.id ∉ idsOn
      (process_fixed_schedules employees (fun _ => 0) (fun _ => [])).2.2 d := by
    intro d hmem'
    rw [process_fixed_mem] at hmem'
    rcases hmem' with hinit | ⟨e, he, hne, heid, -⟩
    · simp [idsOn_empty] at hinit
    · have : e = employee := List.inj_on_of_nodup_map hids he hmem heid
      rw [this, hfd] at hne
      simp at hne
  have hq : employee.required_days ∈ ([5, 3, 2, 1] : List Nat) := by
    have hqs := (day_combinations_isSome employee.required_days).mp (by rw [hcat]; rfl)
    rcases hqs with h | h | h | h <;> simp [h]
  obtain ⟨combo, hcombo, hiff⟩ := foldl_keys_single shg shc hshg hshc
    (process_fixed_schedules employees (fun _ => 0) (fun _ => [])).1.1 past_schedules
    employee hmemflex hidsflex combos hcat ([5, 3, 2, 1] : List Nat)
    (0, (process_fixed_schedules employees (fun _ => 0) (fun _ => [])).2.1,
      (process_fixed_schedules employees (fun _ => 0) (fun _ => [])).2.2)
    hstart hq (by decide)
  refine ⟨combo, hcombo, ?_⟩
  intro d
  rw [generate_eq, process_flexible_canonical shg shc hshg _ _ _ _]
  exact hiff d

theorem filter_id_length_one (i : Nat) :
    ∀ (l : List Employee), (l.map (fun e => e.id)).Nodup → i ∈ l.map (fun e => e.id) →
      (l.filter (fun x => x.id == i)).length = 1 := by
  intro l
  induction l with
  | nil => intro _ h; simp at h
  | cons e rest ih =>
    intro hnd hmem
    rw [List.map_cons] at hnd hmem
    obtain ⟨hnotin, hndrest⟩ := List.nodup_cons.mp hnd
    by_cases hid : e.id = i
    · have hrest0 : rest.filter (fun x => x.id == i) = [] := by
        rw [List.filter_eq_nil_iff]
        intro x hx hbe
        apply hnotin
        rw [hid, ← beq_iff_eq.mp hbe]
        exact List.mem_map_of_mem _ hx
      rw [List.filter_cons_of_pos (by simp [hid]), hrest0]
      rfl
    · have hmemrest : i ∈ rest.map (fun e => e.id) := by
        rcases List.mem_cons.mp hmem with h | h
        · exact absurd h.symm hid
        · exact h
      rw [List.filter_cons_of_neg (by simp [hid])]
      exact ih hndrest hmemrest

theorem generate_nodup (shg : Nat → List Employee → List Employee)
    (shc : Nat → List DayCombination → List DayCombination)
    (employees : List Employee) (past_schedules : PastSchedules) (d : Weekday) :
    (idsOn (generate_balanced_schedule shg shc employees past_schedules) d).Nodup := by
  rw [generate_eq, process_flexible_eq]
  apply foldl_keys_nodup
  intro d'
  apply process_fixed_nodup
  intro d''
  simp [idsOn_empty]

theorem appears_filter_eq (schedule : MonthlySchedule) (i : Nat) (combo : DayCombination)
    (hiff : ∀ d, i ∈ idsOn schedule d ↔ d ∈ combo.days) :
    gen_weekdays.filter (fun d => appears schedule i d) =
      gen_weekdays.filter (fun d => decide (d ∈ combo.days)) :=
  List.filter_congr (fun d _ => by
    rw [Bool.eq_iff_iff, appears_iff, decide_eq_true_eq]
    exact hiff d)

/-! ## Concrete instances used by witness statements -/

/-- A concrete roster member for witness instances. -/
def wEmp (i rd : Nat) (fd : List Weekday) : Employee :=
  ⟨i, "w", Sex.Male, Role.HR, rd, fd, false⟩

/-- The identity bucket-shuffle oracle. -/
def idShuffleE : Nat → List Employee → List Employee := fun _ l => l

/-- The identity candidate-shuffle oracle. -/
def idShuffleC : Nat → List DayCombination → List DayCombination := fun _ l => l

/-- An empty history map. -/
def noPast : PastSchedules := fun _ => none

theorem idShuffleE_ok : IsShuffler idShuffleE := fun _ _ => List.Perm.refl _

theorem idShuffleC_ok : IsShuffler idShuffleC := fun _ _ => List.Perm.refl _

/-! ## The claims -/

/-- C1: Quota satisfaction — if all roster ids are distinct, then every
flexible employee (empty `fixed_days`) whose `required_days` lies in
{1, 2, 3, 5} appears on exactly `required_days` distinct weekdays of the
schedule returned by `generate_balanced_schedule`, for every admissible
outcome of the two random shuffles. -/
theorem C1_quota_satisfaction (shg : Nat → List Employee → List Employee)
    (shc : Nat → List DayCombination → List DayCombination)
    (hshg : IsShuffler shg) (hshc : IsShuffler shc)
    (employees : List Employee) (past_schedules : PastSchedules)
    (hids : (employees.map (fun e => e.id)).Nodup)
    (employee : Employee) (hmem : employee ∈ employees)
    (hfd : employee.fixed_days = [])
    (hq : employee.required_days ∈ ([1, 2, 3, 5] : List Nat)) :
    (gen_weekdays.filter (fun d =>
      appears (generate_balanced_schedule shg shc employees past_schedules)
        employee.id d)).length = employee.required_days := by
  have hq' : employee.required_days = 1 ∨ employee.required_days = 2 ∨
      employee.required_days = 3 ∨ employee.required_days = 5 := by simpa using hq
  rcases hq' with h | h | h | h
  · obtain ⟨combo, hcombo, hiff⟩ := generate_mem_flexible shg shc hshg hshc employees
      past_schedules employee hids hmem hfd combos1 (by rw [h]; rfl)
    rw [appears_filter_eq _ _ combo hiff, h]
    exact (by decide : ∀ c ∈ combos1,
      (gen_weekdays.filter (fun d => decide (d ∈ c.days))).length = 1) combo hcombo
  · obtain ⟨combo, hcombo, hiff⟩ := generate_mem_flexible shg shc hshg hshc employees
      past_schedules employee hids hmem hfd combos2 (by rw [h]; rfl)
    rw [appears_filter_eq _ _ combo hiff, h]
    exact (by decide : ∀ c ∈ combos2,
      (gen_weekdays.filter (fun d => decide (d ∈ c.days))).length = 2) combo hcombo
  · obtain ⟨combo, hcombo, hiff⟩ := generate_mem_flexible shg shc hshg hshc employees
      past_schedules employee hids hmem hfd combos3 (by rw [h]; rfl)
    rw [appears_filter_eq _ _ combo hiff, h]
    exact (by decide : ∀ c ∈ combos3,
      (gen_weekdays.filter (fun d => decide (d ∈ c.days))).length = 3) combo hcombo
  · obtain ⟨combo, hcombo, hiff⟩ := generate_mem_flexible shg shc hshg hshc employees
      past_schedules employee hids hmem hfd combos5 (by rw [h]; rfl)
    rw [appears_filter_eq _ _ combo hiff, h]
    exact (by decide : ∀ c ∈ combos5,
      (gen_weekdays.filter (fun d => decide (d ∈ c.days))).length = 5) combo hcombo

/-- Witness for C1: a one-employee roster with quota 2 and no history,
under the identity shuffles, is scheduled on exactly two weekdays. -/
theorem C1_quota_satisfaction_witness :
    (([wEmp 1 2 []] : List Employee).map (fun e => e.id)).Nodup ∧
    (gen_weekdays.filter (fun d =>
      appears (generate_balanced_schedule idShuffleE idShuffleC [wEmp 1 2 []] noPast)
        (wEmp 1 2 []).id d)).length = (wEmp 1 2 []).required_days :=
  ⟨by decide,
   C1_quota_satisfaction idShuffleE idShuffleC idShuffleE_ok idShuffleC_ok
     [wEmp 1 2 []] noPast (by decide) (wEmp 1 2 []) (List.mem_singleton.mpr rfl) rfl
     (by decide)⟩

/-- C2: Fixed-day inclusion — with distinct roster ids, every employee with
non-empty `fixed_days` occurs exactly once in the roster list of each of
their fixed weekdays in the returned schedule. -/
theorem C2_fixed_day_inclusion (shg : Nat → List Employee → List Employee)
    (shc : Nat → List DayCombination → List DayCombination)
    (hshg : IsShuffler shg)
    (employees : List Employee) (past_schedules : PastSchedules)
    (hids : (employees.map (fun e => e.id)).Nodup)
    (employee : Employee) (hmem : employee ∈ employees)
    (hfd : employee.fixed_days ≠ []) (d : Weekday) (hd : d ∈ employee.fixed_days) :
    ((generate_balanced_schedule shg shc employees past_schedules d).filter
      (fun x => x.id == employee.id)).length = 1 := by
  have hflex : ∀ x ∈ employees, x.fixed_days.isEmpty = true → x.id ≠ employee.id := by
    intro x hx hxe hxid
    have : x = employee := List.inj_on_of_nodup_map hids hx hmem hxid
    rw [this] at hxe
    exact hfd (List.isEmpty_iff.mp hxe)
  have hmm : employee.id ∈
      idsOn (generate_balanced_schedule shg shc employees past_schedules) d := by
    rw [generate_mem_fixed shg shc hshg employees past_schedules employee.id hflex d]
    exact ⟨employee, hmem, List.isEmpty_eq_false.mpr hfd, rfl, hd⟩
  exact filter_id_length_one employee.id _
    (generate_nodup shg shc employees past_schedules d) hmm

/-- Witness for C2: one employee fixed on Tuesday appears exactly once on
Tuesday's roster. -/
theorem C2_fixed_day_inclusion_witness :
    (([wEmp 1 2 [Weekday.Tuesday]] : List Employee).map (fun e => e.id)).Nodup ∧
    ((generate_balanced_schedule idShuffleE idShuffleC [wEmp 1 2 [Weekday.Tuesday]]
        noPast Weekday.Tuesday).filter
      (fun x => x.id == (wEmp 1 2 [Weekday.Tuesday]).id)).length = 1 :=
  ⟨by decide,
   C2_fixed_day_inclusion idShuffleE idShuffleC idShuffleE_ok
     [wEmp 1 2 [Weekday.Tuesday]] noPast (by decide) (wEmp 1 2 [Weekday.Tuesday])
     (List.mem_singleton.mpr rfl) (by decide) Weekday.Tuesday (by decide)⟩

/-- C3: No-duplicate invariant — on every weekday of the schedule returned
by `generate_balanced_schedule` no employee id occurs twice, for every
roster, history and shuffle outcome (the invariant holds for the empty
initial schedule and is preserved by each insert-if-absent step; see
`nodup_idsOn_add_to_day` and `nodup_idsOn_insert_days`). -/
theorem C3_no_duplicates (shg : Nat → List Employee → List Employee)
    (shc : Nat → List DayCombination → List DayCombination)
    (employees : List Employee) (past_schedules : PastSchedules) (d : Weekday) :
    (idsOn (generate_balanced_schedule shg shc employees past_schedules) d).Nodup :=
  generate_nodup shg shc employees past_schedules d

/-- C4: Deterministic combinations for quotas 3 and 5 — with distinct
roster ids, a flexible employee with `required_days = 3` is assigned
exactly {Monday, Wednesday, Friday}, and one with `required_days = 5` is
assigned all five weekdays, for every outcome of the shuffles. -/
theorem C4_deterministic_quota_3_5 (shg : Nat → List Employee → List Employee)
    (shc : Nat → List DayCombination → List DayCombination)
    (hshg : IsShuffler shg) (hshc : IsShuffler shc)
    (employees : List Employee) (past_schedules : PastSchedules)
    (hids : (employees.map (fun e => e.id)).Nodup)
    (employee : Employee) (hmem : employee ∈ employees)
    (hfd : employee.fixed_days = []) :
    (employee.required_days = 3 → ∀ d,
      (employee.id ∈ idsOn (generate_balanced_schedule shg shc employees past_schedules) d ↔
        d ∈ [Weekday.Monday, Weekday.Wednesday, Weekday.Friday])) ∧
    (employee.required_days = 5 → ∀ d,
      employee.id ∈ idsOn (generate_balanced_schedule shg shc employees past_schedules) d) := by
  constructor
  · intro h3 d
    obtain ⟨combo, hcombo, hiff⟩ := generate_mem_flexible shg shc hshg hshc employees
      past_schedules employee hids hmem hfd combos3 (by rw [h3]; rfl)
    have hc : combo = ⟨[Weekday.Monday, Weekday.Wednesday, Weekday.Friday]⟩ := by
      simpa [combos3] using hcombo
    rw [hiff d, hc]
  · intro h5 d
    obtain ⟨combo, hcombo, hiff⟩ := generate_mem_flexible shg shc hshg hshc employees
      past_schedules employee hids hmem hfd combos5 (by rw [h5]; rfl)
    have hc : combo = ⟨gen_weekdays⟩ := by
      simpa [combos5, gen_weekdays] using hcombo
    rw [hiff d, hc]
    cases d <;> simp [gen_weekdays]

/-- Witness for C4: a quota-3 employee lands exactly on Monday, Wednesday
and Friday; a quota-5 employee lands on Tuesday as well. -/
theorem C4_deterministic_quota_3_5_witness :
    (([wEmp 1 3 []] : List Employee).map (fun e => e.id)).Nodup ∧
    (((wEmp 1 3 []).required_days = 3 → ∀ d,
      ((wEmp 1 3 []).id ∈
          idsOn (generate_balanced_schedule idShuffleE idShuffleC [wEmp 1 3 []] noPast) d ↔
        d ∈ [Weekday.Monday, Weekday.Wednesday, Weekday.Friday])) ∧
    ((wEmp 1 3 []).required_days = 5 → ∀ d,
      (wEmp 1 3 []).id ∈
        idsOn (generate_balanced_schedule idShuffleE idShuffleC [wEmp 1 3 []] noPast) d)) :=
  ⟨by decide,
   C4_deterministic_quota_3_5 idShuffleE idShuffleC idShuffleE_ok idShuffleC_ok
     [wEmp 1 3 []] noPast (by decide) (wEmp 1 3 []) (List.mem_singleton.mpr rfl) rfl⟩

/-- C10: Fixed employees receive only their fixed days — with distinct
roster ids, an employee with non-empty `fixed_days` appears on a weekday
of the returned schedule exactly when that weekday is one of their fixed
days; in particular their `required_days` quota yields no flexible
assignment. -/
theorem C10_fixed_only_fixed_days (shg : Nat → List Employee → List Employee)
    (shc : Nat → List DayCombination → List DayCombination)
    (hshg : IsShuffler shg)
    (employees : List Employee) (past_schedules : PastSchedules)
    (hids : (employees.map (fun e => e.id)).Nodup)
    (employee : Employee) (hmem : employee ∈ employees)
    (hfd : employee.fixed_days ≠ []) (d : Weekday) :
    employee.id ∈ idsOn (generate_balanced_schedule shg shc employees past_schedules) d ↔
      d ∈ employee.fixed_days := by
  have hflex : ∀ x ∈ employees, x.fixed_days.isEmpty = true → x.id ≠ employee.id := by
    intro x hx hxe hxid
    have : x = employee := List.inj_on_of_nodup_map hids hx hmem hxid
    rw [this] at hxe
    exact hfd (List.isEmpty_iff.mp hxe)
  rw [generate_mem_fixed shg shc hshg employees past_schedules employee.id hflex d]
  constructor
  · rintro ⟨e, he, -, heid, hd⟩
    have : e = employee := List.inj_on_of_nodup_map hids he hmem heid
    rwa [this] at hd
  · intro hd
    exact ⟨employee, hmem, List.isEmpty_eq_false.mpr hfd, rfl, hd⟩

/-- C5: Selector selection rule and totality — on every non-empty
already-shuffled candidate list the selector returns the earliest
candidate whose total score is strictly below every earlier candidate's
score and at most every later candidate's score (so ties keep the earlier
candidate, and a result exists even when all scores are equal); for a
quota-2 candidate list (a permutation of the catalog entry) the result is
one of the six catalog pairs. -/
theorem C5_selector_first_min (day_counts : DayCount) (employee : Employee)
    (past_schedules : PastSchedules) (shuffled : List DayCombination)
    (h : shuffled ≠ []) :
    ∃ c pre post,
      find_best_day_combination shuffled day_counts employee past_schedules = some c ∧
      shuffled = pre ++ c :: post ∧
      (∀ x ∈ pre,
        combo_score day_counts (past_day_frequencies past_schedules employee.id) c <
          combo_score day_counts (past_day_frequencies past_schedules employee.id) x) ∧
      (∀ x ∈ post,
        combo_score day_counts (past_day_frequencies past_schedules employee.id) c ≤
          combo_score day_counts (past_day_frequencies past_schedules employee.id) x) ∧
      (shuffled.Perm combos2 → c ∈ combos2) := by
  obtain ⟨c, pre, post, hc, heq, hpre, hpost⟩ :=
    find_best_spec day_counts employee past_schedules shuffled h
  refine ⟨c, pre, post, hc, heq, hpre, hpost, ?_⟩
  intro hperm
  apply hperm.subset
  rw [heq]
  exact List.mem_append.mpr (Or.inr (List.mem_cons_self _ _))

/-- Witness for C5: the selector at the six-pair quota-2 catalog, zero
day-load and empty history returns a member of the catalog. -/
theorem C5_selector_first_min_witness :
    (combos2 : List DayCombination) ≠ [] ∧
    ∃ c pre post,
      find_best_day_combination combos2 (fun _ => 0) (wEmp 1 2 []) noPast = some c ∧
      combos2 = pre ++ c :: post ∧
      (∀ x ∈ pre,
        combo_score (fun _ => 0) (past_day_frequencies noPast (wEmp 1 2 []).id) c <
          combo_score (fun _ => 0) (past_day_frequencies noPast (wEmp 1 2 []).id) x) ∧
      (∀ x ∈ post,
        combo_score (fun _ => 0) (past_day_frequencies noPast (wEmp 1 2 []).id) c ≤
          combo_score (fun _ => 0) (past_day_frequencies noPast (wEmp 1 2 []).id) x) ∧
      (combos2.Perm combos2 → c ∈ combos2) :=
  ⟨by decide,
   C5_selector_first_min (fun _ => 0) (wEmp 1 2 []) noPast combos2 (by decide)⟩

/-- Specification-side frequency map, written after the spec's words
(§4.4 step 2): keep at most the 2 most recent recorded months; the `i`-th
kept month (counting the oldest kept month as 0, with `n` months kept)
contributes `1 - (i / n) * 0.75` to every weekday present in that month's
set; an employee absent from the history map gets an all-zero map. -/
def spec_day_frequencies (past_schedules : PastSchedules) (employee_id : Nat)
    (day : Weekday) : ℚ :=
  match past_schedules employee_id with
  | none => 0
  | some months =>
    let kept := if months.length > 2 then months.drop (months.length - 2) else months
    let n := kept.length
    ((List.range n).map (fun i =>
      if day ∈ kept.getD i [] then 1 - ((i : ℚ) / (n : ℚ)) * (3 / 4) else 0)).sum

theorem add_freqs_eq (d : Weekday) :
    ∀ (l : List (List Weekday)) (n i : Nat) (f : Weekday → ℚ),
      add_freqs n i l f d = f d + ((List.range l.length).map (fun j =>
        if d ∈ l.getD j [] then 1 - (((i : ℚ) + (j : ℚ)) / (n : ℚ)) * (3 / 4)
        else 0)).sum := by
  intro l
  induction l with
  | nil => intro n i f; simp [add_freqs]
  | cons month rest ih =>
    intro n i f
    rw [show add_freqs n i (month :: rest) f = add_freqs n (i + 1) rest
      (fun day =>
        if day ∈ month then f day + (1 - ((i : ℚ) / (n : ℚ)) * (3 / 4)) else f day)
      from rfl]
    rw [ih]
    rw [List.length_cons, List.range_succ_eq_map, List.map_cons, List.sum_cons,
      List.map_map]
    have hmapeq : ∀ j ∈ List.range rest.length,
        ((fun j => if d ∈ (month :: rest).getD j [] then
            1 - (((i : ℚ) + (j : ℚ)) / (n : ℚ)) * (3 / 4) else 0) ∘ Nat.succ) j =
        (fun j => if d ∈ rest.getD j [] then
            1 - (((i : ℚ) + 1 + (j : ℚ)) / (n : ℚ)) * (3 / 4) else 0) j := by
      intro j _
      simp only [Function.comp_apply, List.getD_cons_succ]
      congr 2
      push_cast
      ring
    rw [List.map_congr_left hmapeq]
    simp only [List.getD_cons_zero, Nat.cast_zero, add_zero, Nat.cast_add, Nat.cast_one]
    by_cases hm : d ∈ month
    · simp only [if_pos hm]
      ring
    · simp only [if_neg hm]
      ring

/-- C6: Repetition-frequency construction — the selector's per-weekday
frequency map equals the spec's formula: at most the 2 most recent months
are kept, the `i`-th kept month (oldest kept = 0, `n` kept) contributes
`1 - (i/n) * 0.75` to every weekday in its set, and an employee with no
history entry gets an all-zero map. -/
theorem C6_frequency_construction (past_schedules : PastSchedules) (employee_id : Nat)
    (d : Weekday) :
    past_day_frequencies past_schedules employee_id d =
      spec_day_frequencies past_schedules employee_id d := by
  unfold past_day_frequencies spec_day_frequencies
  cases hp : past_schedules employee_id with
  | none => rfl
  | some months =>
    show add_freqs (recent_of months).length 0 (recent_of months) (fun _ => 0) d =
      ((List.range (recent_of months).length).map (fun i =>
        if d ∈ (recent_of months).getD i [] then
          1 - ((i : ℚ) / ((recent_of months).length : ℚ)) * (3 / 4) else 0)).sum
    rw [add_freqs_eq]
    simp only [Nat.cast_zero, zero_add]

theorem bump_apply :
    ∀ (days : List Weekday) (day_counts : DayCount) (d : Weekday),
      bump days day_counts d = day_counts d + days.count d := by
  intro days
  induction days with
  | nil => intro dc d; simp [bump]
  | cons day rest ih =>
    intro dc d
    rw [show bump (day :: rest) dc =
      bump rest (fun d' => if d' = day then dc d' + 1 else dc d') from rfl]
    rw [ih, List.count_cons]
    by_cases hd : d = day
    · subst hd
      simp only [if_pos rfl, beq_self_eq_true, if_true]
      omega
    · simp only [if_neg hd, beq_iff_eq, if_neg (Ne.symm hd)]
      omega

/-- Specification-side candidate score, written after the spec's words
(§4.4 step 3): simulate the combination on a copy of the day-load
(each day of the set incremented by 1), take the sum over all five
weekdays of the squared deviation from the mean simulated load (a
population sum of squares, not divided by the count), add 3 times the sum
of the employee's frequency values over the combination's days. -/
def spec_combo_score (day_counts : DayCount) (freqs : Weekday → ℚ)
    (combo : DayCombination) : ℚ :=
  let temp : Weekday → Nat := fun d =>
    if d ∈ combo.days then day_counts d + 1 else day_counts d
  let mean : ℚ := ((temp Weekday.Monday : ℚ) + (temp Weekday.Tuesday : ℚ) +
    (temp Weekday.Wednesday : ℚ) + (temp Weekday.Thursday : ℚ) +
    (temp Weekday.Friday : ℚ)) / 5
  let imbalance : ℚ := ((temp Weekday.Monday : ℚ) - mean) ^ 2 +
    ((temp Weekday.Tuesday : ℚ) - mean) ^ 2 +
    ((temp Weekday.Wednesday : ℚ) - mean) ^ 2 +
    ((temp Weekday.Thursday : ℚ) - mean) ^ 2 +
    ((temp Weekday.Friday : ℚ) - mean) ^ 2
  let repetition : ℚ := (combo.days.map freqs).sum
  imbalance + 3 * repetition

/-- C7: Candidate scoring formula — on a duplicate-free combination (every
catalog combination is one) the code's score equals the spec formula: the
population sum of squared deviations of the five simulated day-loads from
their mean, plus three times the summed repetition frequencies over the
combination's days; the score is computed from a copy of the day-load,
the input day-load itself being left untouched (the embedding's scoring
function returns only the score). -/
theorem C7_scoring_formula (day_counts : DayCount) (freqs : Weekday → ℚ)
    (combo : DayCombination) (hnd : combo.days.Nodup) :
    combo_score day_counts freqs combo = spec_combo_score day_counts freqs combo := by
  have hcnt : ∀ d, combo.days.count d = if d ∈ combo.days then 1 else 0 := by
    intro d
    by_cases hmem : d ∈ combo.days
    · rw [if_pos hmem]
      exact List.count_eq_one_of_mem hnd hmem
    · rw [if_neg hmem]
      exact List.count_eq_zero_of_not_mem hmem
  have htmp : ∀ d, bump combo.days day_counts d =
      if d ∈ combo.days then day_counts d + 1 else day_counts d := by
    intro d
    rw [bump_apply, hcnt]
    by_cases hmem : d ∈ combo.days <;> simp [hmem]
  unfold combo_score spec_combo_score
  simp only [gen_weekdays, List.map_cons, List.map_nil, List.sum_cons, List.sum_nil,
    List.length_cons, List.length_nil, htmp]
  norm_num
  ring

/-- Witness for C7: the code score and the spec score agree at the
{Monday, Wednesday} pair on the zero day-load with zero frequencies. -/
theorem C7_scoring_formula_witness :
    (⟨[Weekday.Monday, Weekday.Wednesday]⟩ : DayCombination).days.Nodup ∧
    combo_score (fun _ => 0) (fun _ => 0) ⟨[Weekday.Monday, Weekday.Wednesday]⟩ =
      spec_combo_score (fun _ => 0) (fun _ => 0) ⟨[Weekday.Monday, Weekday.Wednesday]⟩ :=
  ⟨by decide,
   C7_scoring_formula (fun _ => 0) (fun _ => 0) ⟨[Weekday.Monday, Weekday.Wednesday]⟩
     (by decide)⟩

theorem process_fixed_append :
    ∀ (l₁ l₂ : List Employee) (day_counts : DayCount) (schedule : MonthlySchedule),
      (process_fixed_schedules (l₁ ++ l₂) day_counts schedule).2 =
        (process_fixed_schedules l₂
          (process_fixed_schedules l₁ day_counts schedule).2.1
          (process_fixed_schedules l₁ day_counts schedule).2.2).2 := by
  intro l₁
  induction l₁ with
  | nil => intro l₂ day_counts schedule; rfl
  | cons e rest ih =>
    intro l₂ day_counts schedule
    by_cases he : e.fixed_days.isEmpty
    · rw [show ((e :: rest) ++ l₂) = e :: (rest ++ l₂) from rfl]
      rw [show (process_fixed_schedules (e :: (rest ++ l₂)) day_counts schedule).2 =
        (process_fixed_schedules (rest ++ l₂) day_counts schedule).2 by
          simp [process_fixed_schedules, he]]
      rw [show (process_fixed_schedules (e :: rest) day_counts schedule).2 =
        (process_fixed_schedules rest day_counts schedule).2 by
          simp [process_fixed_schedules, he]]
      exact ih l₂ day_counts schedule
    · simp only [Bool.not_eq_true] at he
      rw [show ((e :: rest) ++ l₂) = e :: (rest ++ l₂) from rfl]
      rw [show (process_fixed_schedules (e :: (rest ++ l₂)) day_counts schedule).2 =
        (process_fixed_schedules (rest ++ l₂)
          (insert_days e e.fixed_days day_counts schedule).1
          (insert_days e e.fixed_days day_counts schedule).2).2 by
          simp [process_fixed_schedules, he]]
      rw [show (process_fixed_schedules (e :: rest) day_counts schedule).2 =
        (process_fixed_schedules rest
          (insert_days e e.fixed_days day_counts schedule).1
          (insert_days e e.fixed_days day_counts schedule).2).2 by
          simp [process_fixed_schedules, he]]
      exact ih l₂ _ _

theorem process_fixed_state_flex_cons (e : Employee) (he : e.fixed_days.isEmpty = true)
    (rest : List Employee) (day_counts : DayCount) (schedule : MonthlySchedule) :
    (process_fixed_schedules (e :: rest) day_counts schedule).2 =
      (process_fixed_schedules rest day_counts schedule).2 := by
  simp [process_fixed_schedules, he]

theorem process_key_congr (shg : Nat → List Employee → List Employee)
    (shc : Nat → List DayCombination → List DayCombination)
    (flex₁ flex₂ : List Employee) (past_schedules : PastSchedules)
    (st : Nat × DayCount × MonthlySchedule) (k : Nat)
    (h : flex₁.filter (fun e => e.required_days == k) =
      flex₂.filter (fun e => e.required_days == k)) :
    process_key shg shc flex₁ past_schedules st k =
      process_key shg shc flex₂ past_schedules st k := by
  unfold process_key
  cases day_combinations k with
  | none => rfl
  | some available => rw [h]

theorem foldl_keys_congr (shg : Nat → List Employee → List Employee)
    (shc : Nat → List DayCombination → List DayCombination)
    (flex₁ flex₂ : List Employee) (past_schedules : PastSchedules) :
    ∀ (keys : List Nat),
      (∀ k ∈ keys, flex₁.filter (fun e => e.required_days == k) =
        flex₂.filter (fun e => e.required_days == k)) →
      ∀ (st : Nat × DayCount × MonthlySchedule),
        keys.foldl (process_key shg shc flex₁ past_schedules) st =
          keys.foldl (process_key shg shc flex₂ past_schedules) st := by
  intro keys
  induction keys with
  | nil => intro _ st; rfl
  | cons k rest ih =>
    intro h st
    rw [List.foldl_cons, List.foldl_cons,
      process_key_congr shg shc flex₁ flex₂ past_schedules st k
        (h k (List.mem_cons_self _ _))]
    exact ih (fun k' hk' => h k' (List.mem_cons_of_mem _ hk')) _

/-- C8: Unmapped-quota degradation — with distinct roster ids, a flexible
employee whose `required_days` lies outside {1, 2, 3, 5} appears on no
weekday of the returned schedule, and the returned schedule is pointwise
identical to the one produced from the roster with that employee erased
(generation itself is a total function, so it completes without error by
construction). -/
theorem C8_unmapped_quota (shg : Nat → List Employee → List Employee)
    (shc : Nat → List DayCombination → List DayCombination)
    (hshg : IsShuffler shg)
    (employees : List Employee) (past_schedules : PastSchedules)
    (hids : (employees.map (fun e => e.id)).Nodup)
    (employee : Employee) (hmem : employee ∈ employees)
    (hfd : employee.fixed_days = [])
    (hq : employee.required_days ∉ ([1, 2, 3, 5] : List Nat)) :
    (∀ d, employee.id ∉
      idsOn (generate_balanced_schedule shg shc employees past_schedules) d) ∧
    (∀ d, generate_balanced_schedule shg shc employees past_schedules d =
      generate_balanced_schedule shg shc (employees.erase employee) past_schedules d) := by
  have hstart : ∀ d, employee.id ∉ idsOn
      (process_fixed_schedules employees (fun _ => 0) (fun _ => [])).2.2 d := by
    intro d hmem'
    rw [process_fixed_mem] at hmem'
    rcases hmem' with hinit | ⟨e, he, hne, heid, -⟩
    · simp [idsOn_empty] at hinit
    · have : e = employee := List.inj_on_of_nodup_map hids he hmem heid
      rw [this, hfd] at hne
      simp at hne
  have hkeep : ∀ x ∈ (process_fixed_schedules employees
      (fun _ => 0) (fun _ => [])).1.1, x.id = employee.id →
      x.required_days ∉ ([5, 3, 2, 1] : List Nat) := by
    intro x hx hxid
    rw [process_fixed_flexible] at hx
    have hxe : x ∈ employees := (List.mem_filter.mp hx).1
    have : x = employee := List.inj_on_of_nodup_map hids hxe hmem hxid
    rw [this]
    intro hmem5
    apply hq
    simp only [List.mem_cons, List.not_mem_nil, or_false] at hmem5 ⊢
    tauto
  constructor
  · intro d hidmem
    rw [generate_eq, process_flexible_canonical shg shc hshg _ _ _ _] at hidmem
    rw [foldl_keys_keep shg shc hshg _ _ employee.id _ hkeep _ d] at hidmem
    exact hstart d hidmem
  · -- split the roster at the unique occurrence of the employee
    obtain ⟨l₁, l₂, hsplit⟩ := List.append_of_mem hmem
    have hnodup : employees.Nodup := hids.of_map _
    have hn₁ : employee ∉ l₁ := by
      rw [hsplit, List.nodup_append] at hnodup
      exact fun hp => hnodup.2.2 hp (List.mem_cons_self _ _)
    have herase : employees.erase employee = l₁ ++ l₂ := by
      rw [hsplit, List.erase_append_right _ hn₁, List.erase_cons_head]
    have hfe : employee.fixed_days.isEmpty = true := by simp [hfd]
    -- the fixed phase leaves the same day counts and schedule
    have hstate : (process_fixed_schedules employees (fun _ => 0) (fun _ => [])).2 =
        (process_fixed_schedules (employees.erase employee)
          (fun _ => 0) (fun _ => [])).2 := by
      rw [herase, hsplit, process_fixed_append, process_fixed_state_flex_cons employee hfe,
        process_fixed_append]
    -- the flexible lists differ only by the unmapped employee
    have hflexeq : (process_fixed_schedules employees (fun _ => 0) (fun _ => [])).1.1 =
        (employees.filter (fun e => e.fixed_days.isEmpty)) := process_fixed_flexible _ _ _
    have hflexeq' : (process_fixed_schedules (employees.erase employee)
        (fun _ => 0) (fun _ => [])).1.1 =
        ((employees.erase employee).filter (fun e => e.fixed_days.isEmpty)) :=
      process_fixed_flexible _ _ _
    have hfilters : ∀ k ∈ ([5, 3, 2, 1] : List Nat),
        (employees.filter (fun e => e.fixed_days.isEmpty)).filter
          (fun e => e.required_days == k) =
        ((employees.erase employee).filter (fun e => e.fixed_days.isEmpty)).filter
          (fun e => e.required_days == k) := by
      intro k hk
      have hne : (employee.required_days == k) = false := by
        rw [beq_eq_false_iff_ne]
        intro hrk
        apply hq
        rw [hrk]
        simp only [List.mem_cons, List.not_mem_nil, or_false] at hk ⊢
        tauto
      rw [herase, hsplit]
      simp [List.filter_append, List.filter_cons, hfe, hne]
    intro d
    rw [generate_eq, generate_eq,
      process_flexible_canonical shg shc hshg _ _ _ _,
      process_flexible_canonical shg shc hshg _ _ _ _]
    rw [hflexeq, hflexeq', ← hstate]
    rw [foldl_keys_congr shg shc
      (employees.filter (fun e => e.fixed_days.isEmpty))
      ((employees.erase employee).filter (fun e => e.fixed_days.isEmpty))
      past_schedules ([5, 3, 2, 1] : List Nat) hfilters _]

/-- Witness for C8: a single flexible employee with quota 4 is dropped:
they appear on no weekday, and the schedule equals the empty-roster
schedule. -/
theorem C8_unmapped_quota_witness :
    (([wEmp 1 4 []] : List Employee).map (fun e => e.id)).Nodup ∧
    ((∀ d, (wEmp 1 4 []).id ∉
      idsOn (generate_balanced_schedule idShuffleE idShuffleC [wEmp 1 4 []] noPast) d) ∧
    (∀ d, generate_balanced_schedule idShuffleE idShuffleC [wEmp 1 4 []] noPast d =
      generate_balanced_schedule idShuffleE idShuffleC
        (([wEmp 1 4 []] : List Employee).erase (wEmp 1 4 [])) noPast d)) :=
  ⟨by decide,
   C8_unmapped_quota idShuffleE idShuffleC idShuffleE_ok [wEmp 1 4 []] noPast
     (by decide) (wEmp 1 4 []) (List.mem_singleton.mpr rfl) rfl (by decide)⟩

theorem freq_of_monday_history (past_schedules : PastSchedules) (employee_id : Nat)
    (hpast : past_schedules employee_id = some [[Weekday.Monday]]) :
    ∀ d, past_day_frequencies past_schedules employee_id d =
      if d = Weekday.Monday then 1 else 0 := by
  intro d
  unfold past_day_frequencies
  rw [hpast]
  show add_freqs (recent_of [[Weekday.Monday]]).length 0 (recent_of [[Weekday.Monday]])
    (fun _ => 0) d = _
  rw [show recent_of [[Weekday.Monday]] = [[Weekday.Monday]] from rfl]
  show (fun day => if day ∈ [Weekday.Monday] then
      (0 : ℚ) + (1 - (((0 : Nat) : ℚ) / ((1 : Nat) : ℚ)) * (3 / 4)) else 0) d = _
  by_cases hd : d = Weekday.Monday
  · subst hd
    norm_num
  · simp [List.mem_singleton, hd]

theorem singleton_score (c : Nat) (freqs : Weekday → ℚ) (d : Weekday) :
    combo_score (fun _ => c) freqs ⟨[d]⟩ = 4 / 5 + 3 * freqs d := by
  have hb : ∀ d', bump [d] (fun _ => c) d' = if d' = d then c + 1 else c := by
    intro d'
    rw [bump_apply]
    by_cases h : d' = d
    · simp [h]
    · simp [h, List.count_singleton]
  unfold combo_score
  simp only [hb, gen_weekdays, List.map_cons, List.map_nil, List.sum_cons, List.sum_nil,
    List.length_cons, List.length_nil]
  cases d <;>
    · norm_num
      push_cast
      ring

/-- C9: Repetition avoidance — an employee with quota 1 whose only history
entry is {Monday}, scored against a uniform current day-load, is never
assigned the Monday singleton: for every permutation of the candidate
list the selector returns a catalog singleton other than {Monday}. -/
theorem C9_repetition_avoidance (c : Nat) (employee : Employee)
    (_hq1 : employee.required_days = 1)
    (past_schedules : PastSchedules) (shuffled : List DayCombination)
    (hpast : past_schedules employee.id = some [[Weekday.Monday]])
    (hperm : shuffled.Perm combos1) :
    ∃ combo,
      find_best_day_combination shuffled (fun _ => c) employee past_schedules =
        some combo ∧
      combo ∈ combos1 ∧ combo.days ≠ [Weekday.Monday] := by
  have hne : shuffled ≠ [] := by
    intro h
    rw [h] at hperm
    have h0 := hperm.nil_eq
    simp [combos1] at h0
  obtain ⟨result, hres⟩ := find_best_isSome (fun _ => c) employee past_schedules shuffled hne
  have hmemc : result ∈ combos1 :=
    hperm.subset (find_best_mem (fun _ => c) employee past_schedules shuffled result hres)
  refine ⟨result, hres, hmemc, ?_⟩
  intro hmon
  have hresult_eq : result = ⟨[Weekday.Monday]⟩ := by
    cases result
    simp_all
  have htue : (⟨[Weekday.Tuesday]⟩ : DayCombination) ∈ shuffled :=
    hperm.mem_iff.mpr (by simp [combos1])
  have hle := find_best_min (fun _ => c) employee past_schedules shuffled result hres
    ⟨[Weekday.Tuesday]⟩ htue
  rw [hresult_eq, singleton_score, singleton_score] at hle
  simp only [freq_of_monday_history past_schedules employee.id hpast] at hle
  rw [if_neg (by decide : ¬ Weekday.Tuesday = Weekday.Monday)] at hle
  norm_num at hle

/-- Witness for C9: with the unshuffled singleton catalog, a uniform zero
load and the {Monday} history, the selector avoids Monday. -/
theorem C9_repetition_avoidance_witness :
    ((fun i => if i = 7 then some [[Weekday.Monday]] else none : PastSchedules)
      (wEmp 7 1 []).id = some [[Weekday.Monday]]) ∧
    ∃ combo,
      find_best_day_combination combos1 (fun _ => 0) (wEmp 7 1 [])
        (fun i => if i = 7 then some [[Weekday.Monday]] else none) = some combo ∧
      combo ∈ combos1 ∧ combo.days ≠ [Weekday.Monday] :=
  ⟨by decide,
   C9_repetition_avoidance 0 (wEmp 7 1 []) rfl
     (fun i => if i = 7 then some [[Weekday.Monday]] else none) combos1
     (by decide) (List.Perm.refl _)⟩

/-- Witness for C10: an employee fixed on Tuesday with quota 3 appears on
Tuesday and not on Monday. -/
theorem C10_fixed_only_fixed_days_witness :
    (([wEmp 1 3 [Weekday.Tuesday]] : List Employee).map (fun e => e.id)).Nodup ∧
    ((wEmp 1 3 [Weekday.Tuesday]).id ∈
        idsOn (generate_balanced_schedule idShuffleE idShuffleC
          [wEmp 1 3 [Weekday.Tuesday]] noPast) Weekday.Tuesday ↔
      Weekday.Tuesday ∈ (wEmp 1 3 [Weekday.Tuesday]).fixed_days) ∧
    ((wEmp 1 3 [Weekday.Tuesday]).id ∈
        idsOn (generate_balanced_schedule idShuffleE idShuffleC
          [wEmp 1 3 [Weekday.Tuesday]] noPast) Weekday.Monday ↔
      Weekday.Monday ∈ (wEmp 1 3 [Weekday.Tuesday]).fixed_days) :=
  ⟨by decide,
   C10_fixed_only_fixed_days idShuffleE idShuffleC idShuffleE_ok
     [wEmp 1 3 [Weekday.Tuesday]] noPast (by decide) (wEmp 1 3 [Weekday.Tuesday])
     (List.mem_singleton.mpr rfl) (by decide) Weekday.Tuesday,
   C10_fixed_only_fixed_days idShuffleE idShuffleC idShuffleE_ok
     [wEmp 1 3 [Weekday.Tuesday]] noPast (by decide) (wEmp 1 3 [Weekday.Tuesday])
     (List.mem_singleton.mpr rfl) (by decide) Weekday.Monday⟩

end DaysApp
